import Mathlib

/-!
Verification of the SGM (Semi-Global Matching) stereo depth estimation core
(`src/hls/src/sgm_hls.cpp` / `sgm_hls.h`), as a shallow embedding in Lean 4.

The embedding models the numeric arrays of the C code as total functions
(`Volume`, `Image`), every loop as a `List.foldl` over the exact iteration
order of the source, and every array store as a pointwise functional update.
Pixel intensities and costs are modelled as rationals (`ℚ`): all constants of
the code (`1000.0f`, `2000.0f`, `1e9`, the penalties `8` and `128`) are exact
in this model, and for integer-valued grayscale inputs the float computation
of the source is exact as well.

The grid dimensions `HEIGHT`, `WIDTH`, `MAX_DISP` and the penalties are
compile-time configuration macros in the source; the functions below take
them as parameters `H W D p1 p2`, and the concrete values are bound to the
macro names.
-/

namespace SGM

/-- A 3-D cost volume `v y x d`, modelling `float v[HEIGHT][WIDTH][MAX_DISP]`. -/
abbrev Volume := Nat → Nat → Nat → ℚ

/-- A flat image buffer, modelling `float img[HEIGHT * WIDTH]`. -/
abbrev Image := Nat → ℚ

/-- Macro `HEIGHT` from `sgm_hls.h`. -/
def HEIGHT : Nat := 240

/-- Macro `WIDTH` from `sgm_hls.h`. -/
def WIDTH : Nat := 272

/-- Macro `MAX_DISP` from `sgm_hls.h`. -/
def MAX_DISP : Nat := 16

/-- Macro `P1_PENALTY` from `sgm_hls.h`. -/
def P1_PENALTY : ℚ := 8

/-- Macro `P2_PENALTY` from `sgm_hls.h`. -/
def P2_PENALTY : ℚ := 128

/-- Functional update of one cell of a volume (an array store `v[y][x][d] = val`). -/
def update3 (v : Volume) (y x d : Nat) (val : ℚ) : Volume :=
  fun y' x' d' => if y' = y ∧ x' = x ∧ d' = d then val else v y' x' d'

/-- Inner disparity loop of `compute_sad_cost_hls` at a single pixel `(y, x)`:
for each `d < D`, store `|left[y*W+x] - right[y*W+(x-d)]|` when `x - d >= 0`,
else the `1000.0f` out-of-bounds penalty. -/
def sadPixel (W D : Nat) (left right : Image) (v : Volume) (y x : Nat) : Volume :=
  (List.range D).foldl
    (fun w d =>
      update3 w y x d
        (if 0 ≤ (x : Int) - (d : Int) then
          |left (y * W + x) - right (y * W + (x - d))|
        else 1000)) v

/-- Scan position along one axis: ascending when the direction component is
`>= 0` (the code's `y_start = 0, y_step = 1`), descending otherwise
(`y_start = HEIGHT-1, y_step = -1`). `axisIdx n dir i` is the coordinate
visited at step `i`. -/
def axisIdx (n : Nat) (dir : Int) (i : Nat) : Nat :=
  if 0 ≤ dir then i else n - 1 - i

/-- The list of coordinates visited along one axis, in visit order. -/
def axisList (n : Nat) (dir : Int) : List Nat :=
  if 0 ≤ dir then List.range n else (List.range n).reverse

/-- The pixel scan order of the nested `y`/`x` loops of both
`compute_sad_cost_hls` (with directions `(1, 1)`) and `aggregate_path_hls`. -/
def scanOrder (H W : Nat) (dy dx : Int) : List (Nat × Nat) :=
  (axisList H dy).flatMap (fun y => (axisList W dx).map (fun x => (y, x)))

/-- Embedding of `compute_sad_cost_hls`: fold the per-pixel store loop over the
row-major scan, starting from the arbitrary previous contents `v` of the
static `cost_volume` array. -/
def compute_sad_cost_hls (H W D : Nat) (left right : Image) (v : Volume) : Volume :=
  (scanOrder H W 1 1).foldl (fun w p => sadPixel W D left right w p.1 p.2) v

/-- The `min_prev_aggregated` loop of `aggregate_path_hls`: start from the
fiber value at disparity `0` and scan `i = 1 .. D-1`, keeping the smaller. -/
def fiberMin (D : Nat) (f : Nat → ℚ) : ℚ :=
  (List.range (D - 1)).foldl (fun m i => if f (i + 1) < m then f (i + 1) else m) (f 0)

/-- The transition-cost selection of `aggregate_path_hls` for one disparity
`d`, reading the predecessor fiber `f` and the precomputed minimum `mp`:
the sequential `if`-chain over `cost_same`, `cost_step_down`, `cost_step_up`
(with the `2000.0f` unreachable sentinel at the disparity range edges) and
`cost_jump = mp + p2`. -/
def transMin (D : Nat) (p1 p2 : ℚ) (f : Nat → ℚ) (mp : ℚ) (d : Nat) : ℚ :=
  let cost_same := f d
  let cost_step_down := if 0 < d then f (d - 1) + p1 else 2000
  let cost_step_up := if d < D - 1 then f (d + 1) + p1 else 2000
  let cost_jump := mp + p2
  let m1 := if cost_step_down < cost_same then cost_step_down else cost_same
  let m2 := if cost_step_up < m1 then cost_step_up else m1
  if cost_jump < m2 then cost_jump else m2

/-- The in-bounds test `prev_y >= 0 && prev_y < HEIGHT && prev_x >= 0 &&
prev_x < WIDTH` of `aggregate_path_hls`. -/
def inGrid (H W : Nat) (py px : Int) : Prop :=
  0 ≤ py ∧ py < (H : Int) ∧ 0 ≤ px ∧ px < (W : Int)

instance (H W : Nat) (py px : Int) : Decidable (inGrid H W py px) := by
  unfold inGrid; infer_instance

/-- Body of the pixel loop of `aggregate_path_hls`: if the predecessor pixel is
in the grid, compute `min_prev_aggregated` and run the disparity loop of the
recurrence; otherwise copy the raw cost (boundary initialization). Stores are
made into the live volume `v`, reads of the predecessor fiber read the live
volume, and `mp` is computed once before the disparity loop — exactly as in
the source. -/
def processPixel (H W D : Nat) (p1 p2 : ℚ) (cost : Volume) (dy dx : Int)
    (v : Volume) (y x : Nat) : Volume :=
  let py := (y : Int) - dy
  let px := (x : Int) - dx
  if inGrid H W py px then
    let pyN := py.toNat
    let pxN := px.toNat
    let mp := fiberMin D (v pyN pxN)
    (List.range D).foldl
      (fun w d =>
        update3 w y x d (cost y x d + (transMin D p1 p2 (w pyN pxN) mp d - mp))) v
  else
    (List.range D).foldl (fun w d => update3 w y x d (cost y x d)) v

/-- Embedding of `aggregate_path_hls`: fold the pixel body over the scan order
determined by the direction `(dy, dx)`, starting from the arbitrary previous
contents `v` of the static path-cost array. -/
def aggregate_path_hls (H W D : Nat) (p1 p2 : ℚ) (cost : Volume) (v : Volume)
    (dy dx : Int) : Volume :=
  (scanOrder H W dy dx).foldl
    (fun w p => processPixel H W D p1 p2 cost dy dx w p.1 p.2) v

/-- One step of the winner-take-all scan: `if (total < min_total) update`. -/
def wtaStep (total : Nat → ℚ) (s : ℚ × Nat) (d : Nat) : ℚ × Nat :=
  if total d < s.1 then (total d, d) else s

/-- The winner-take-all disparity selection of `sgm_hls` at one pixel:
scan disparities ascending from `(min_total_cost, best_disparity) = (1e9, 0)`
and return the final `best_disparity`. -/
def selectDisparity (D : Nat) (total : Nat → ℚ) : Nat :=
  ((List.range D).foldl (wtaStep total) (10 ^ 9, 0)).2

/-- Embedding of the top-level `sgm_hls`: cost computation, the four path
aggregations with direction vectors `(0,1)`, `(0,-1)`, `(1,0)`, `(-1,0)`, and
per-pixel winner-take-all over the summed aggregated volumes. The five `v*`
arguments are the arbitrary previous contents of the five `static` on-chip
arrays. The result maps a pixel `(y, x)` to the value stored at
`disparity_output[y*W + x]`. -/
def sgm_hls (H W D : Nat) (p1 p2 : ℚ) (left right : Image)
    (vCost vL vR vT vB : Volume) : Nat → Nat → Nat :=
  let cost := compute_sad_cost_hls H W D left right vCost
  let pathL := aggregate_path_hls H W D p1 p2 cost vL 0 1
  let pathR := aggregate_path_hls H W D p1 p2 cost vR 0 (-1)
  let pathT := aggregate_path_hls H W D p1 p2 cost vT 1 0
  let pathB := aggregate_path_hls H W D p1 p2 cost vB (-1) 0
  fun y x =>
    selectDisparity D
      (fun d => pathL y x d + pathR y x d + pathT y x d + pathB y x d)

/-- The four direction vectors `aggregate_path_hls` is invoked with. -/
def isCardinal (dy dx : Int) : Prop :=
  (dy = 0 ∧ (dx = 1 ∨ dx = -1)) ∨ (dx = 0 ∧ (dy = 1 ∨ dy = -1))

instance (dy dx : Int) : Decidable (isCardinal dy dx) := by
  unfold isCardinal; infer_instance

/-- The per-pixel total of the four aggregated volumes summed by the
winner-take-all stage of `sgm_hls`:
`path_left_to_right + path_right_to_left + path_top_to_bottom +
path_bottom_to_top` at `[y][x][d]`. -/
def totalCost (H W D : Nat) (p1 p2 : ℚ) (left right : Image)
    (vCost vL vR vT vB : Volume) (y x d : Nat) : ℚ :=
  aggregate_path_hls H W D p1 p2 (compute_sad_cost_hls H W D left right vCost)
      vL 0 1 y x d +
    aggregate_path_hls H W D p1 p2 (compute_sad_cost_hls H W D left right vCost)
      vR 0 (-1) y x d +
    aggregate_path_hls H W D p1 p2 (compute_sad_cost_hls H W D left right vCost)
      vT 1 0 y x d +
    aggregate_path_hls H W D p1 p2 (compute_sad_cost_hls H W D left right vCost)
      vB (-1) 0 y x d

/-- Number of steps from the start of the aggregation path to pixel `(y, x)`
for a cardinal direction: the predecessor (when in the grid) is exactly one
step closer to the path start. -/
def dist (H W : Nat) (dy dx : Int) (y x : Nat) : Nat :=
  (if dy = 1 then y else if dy = -1 then H - 1 - y else 0) +
  (if dx = 1 then x else if dx = -1 then W - 1 - x else 0)

/-- The pixel visited at step `k` of the scan (row-major over scan positions). -/
def pixAt (H W : Nat) (dy dx : Int) (k : Nat) : Nat × Nat :=
  (axisIdx H dy (k / W), axisIdx W dx (k % W))

/-- The scan step at which pixel `(y, x)` is visited. -/
def scanPos (H W : Nat) (dy dx : Int) (y x : Nat) : Nat :=
  axisIdx H dy y * W + axisIdx W dx x

lemma axisIdx_lt {n i : Nat} (dir : Int) (h : i < n) : axisIdx n dir i < n := by
  unfold axisIdx; split <;> omega

lemma axisIdx_axisIdx {n i : Nat} (dir : Int) (h : i < n) :
    axisIdx n dir (axisIdx n dir i) = i := by
  unfold axisIdx; split <;> omega

lemma reverse_range (n : Nat) :
    (List.range n).reverse = (List.range n).map (fun i => n - 1 - i) := by
  induction n with
  | zero => simp
  | succ m ih =>
      conv_lhs => rw [List.range_succ]
      rw [List.range_succ_eq_map]
      simp only [List.reverse_append, List.reverse_cons, List.reverse_nil,
        List.nil_append, List.singleton_append, List.map_cons, List.map_map, ih,
        Nat.add_sub_cancel, Nat.sub_zero]
      congr 1
      refine List.map_congr_left fun i _ => ?_
      simp only [Function.comp_apply]
      omega

lemma axisList_eq_map (n : Nat) (dir : Int) :
    axisList n dir = (List.range n).map (axisIdx n dir) := by
  unfold axisList axisIdx
  split
  · exact (List.map_id _).symm ▸ (by simp)
  · rw [reverse_range]

lemma flatMap_map_range {α : Type} (n m : Nat) (g : Nat → Nat → α) :
    (List.range n).flatMap (fun r => (List.range m).map (g r)) =
      (List.range (n * m)).map (fun k => g (k / m) (k % m)) := by
  induction n with
  | zero => simp
  | succ a ih =>
      rw [List.range_succ, List.flatMap_append, ih]
      rcases Nat.eq_zero_or_pos m with hm | hm
      · subst hm; simp
      · have : (a + 1) * m = a * m + m := by ring
        rw [this, List.range_add, List.map_append]
        refine congrArg _ ?_
        simp only [List.flatMap_cons, List.flatMap_nil, List.append_nil,
          List.map_map]
        refine List.map_congr_left fun c hc => ?_
        have hcm : c < m := List.mem_range.mp hc
        have hdiv : (a * m + c) / m = a := by
          rw [Nat.mul_comm a m, Nat.mul_add_div hm, Nat.div_eq_of_lt hcm]
          omega
        have hmod : (a * m + c) % m = c := by
          rw [Nat.mul_add_mod']
          exact Nat.mod_eq_of_lt hcm
        simp [Function.comp_apply, hdiv, hmod]

lemma scanOrder_eq_map (H W : Nat) (dy dx : Int) :
    scanOrder H W dy dx = (List.range (H * W)).map (pixAt H W dy dx) := by
  unfold scanOrder pixAt
  rw [axisList_eq_map, axisList_eq_map, List.flatMap_map]
  have h : (fun a => ((List.range W).map (axisIdx W dx)).map
        (fun x => (axisIdx H dy a, x))) =
      fun r => (List.range W).map (fun c => (axisIdx H dy r, axisIdx W dx c)) := by
    funext r
    rw [List.map_map]
    rfl
  rw [h]
  exact flatMap_map_range H W _

lemma scanPos_lt {H W y x : Nat} (dy dx : Int) (hy : y < H) (hx : x < W) :
    scanPos H W dy dx y x < H * W := by
  unfold scanPos
  have h1 : axisIdx H dy y < H := axisIdx_lt dy hy
  have h2 : axisIdx W dx x < W := axisIdx_lt dx hx
  calc axisIdx H dy y * W + axisIdx W dx x
      < axisIdx H dy y * W + W := by omega
    _ = (axisIdx H dy y + 1) * W := by ring
    _ ≤ H * W := Nat.mul_le_mul_right W (by omega)

lemma pixAt_scanPos {H W y x : Nat} (dy dx : Int) (hy : y < H) (hx : x < W) :
    pixAt H W dy dx (scanPos H W dy dx y x) = (y, x) := by
  unfold pixAt scanPos
  have h2 : axisIdx W dx x < W := axisIdx_lt dx hx
  have hdiv : (axisIdx H dy y * W + axisIdx W dx x) / W = axisIdx H dy y := by
    rw [Nat.mul_comm (axisIdx H dy y) W, Nat.mul_add_div (by omega),
      Nat.div_eq_of_lt h2]
    omega
  have hmod : (axisIdx H dy y * W + axisIdx W dx x) % W = axisIdx W dx x := by
    rw [Nat.mul_add_mod']
    exact Nat.mod_eq_of_lt h2
  rw [hdiv, hmod, axisIdx_axisIdx dy hy, axisIdx_axisIdx dx hx]

lemma scanPos_pixAt {H W k : Nat} (dy dx : Int) (hW : 0 < W) (hk : k < H * W) :
    scanPos H W dy dx (pixAt H W dy dx k).1 (pixAt H W dy dx k).2 = k := by
  unfold pixAt scanPos
  have hdivH : k / W < H := (Nat.div_lt_iff_lt_mul hW).mpr hk
  have hmodW : k % W < W := Nat.mod_lt _ hW
  simp only
  rw [axisIdx_axisIdx dy hdivH, axisIdx_axisIdx dx hmodW, Nat.mul_comm]
  exact Nat.div_add_mod k W

/-- Decomposition of the scan order at the step of pixel `(y, x)`: everything
after it is visited at a strictly later scan step. -/
lemma scanOrder_split {H W y x : Nat} (dy dx : Int) (hy : y < H) (hx : x < W) :
    ∃ l₁ l₂ : List (Nat × Nat),
      scanOrder H W dy dx = l₁ ++ (y, x) :: l₂ ∧
      ∀ q ∈ l₂, ∃ j, scanPos H W dy dx y x < j ∧ j < H * W ∧
        q = pixAt H W dy dx j := by
  set p := scanPos H W dy dx y x with hp
  have hpl : p < H * W := scanPos_lt dy dx hy hx
  obtain ⟨r, hr⟩ : ∃ r, H * W = p + (r + 1) := ⟨H * W - p - 1, by omega⟩
  refine ⟨(List.range p).map (pixAt H W dy dx),
    (List.range r).map (fun c => pixAt H W dy dx (p + 1 + c)), ?_, ?_⟩
  · rw [scanOrder_eq_map, hr, List.range_add, List.map_append,
      List.range_succ_eq_map]
    refine congrArg _ ?_
    simp only [List.map_cons, List.map_map, Nat.add_zero]
    rw [pixAt_scanPos dy dx hy hx]
    refine congrArg _ ?_
    refine List.map_congr_left fun c _ => ?_
    simp only [Function.comp_apply]
    refine congrArg _ (by omega)
  · intro q hq
    rcases List.mem_map.mp hq with ⟨c, hc, rfl⟩
    exact ⟨p + 1 + c, by omega, by
      have := List.mem_range.mp hc; omega, rfl⟩

section FoldLemmas

variable {H W D : Nat} {p1 p2 : ℚ} {cost v : Volume} {dy dx : Int} {y x d : Nat}

/-- A store loop writing only into pixel `(y, x)` leaves other pixels alone. -/
lemma foldl_update_frame (y x : Nat) (g : Volume → Nat → ℚ) (l : List Nat)
    (v : Volume) {y' x' : Nat} (h : ¬(y' = y ∧ x' = x)) (d' : Nat) :
    (l.foldl (fun w d => update3 w y x d (g w d)) v) y' x' d' = v y' x' d' := by
  induction l generalizing v with
  | nil => rfl
  | cons a t ih =>
      rw [List.foldl_cons, ih]
      unfold update3
      rw [if_neg]
      tauto

/-- The value stored at `(y, x, j)` by the disparity store loop, when the
stored expression only reads the volume outside pixel `(y, x)`. -/
lemma foldl_update_get (y x : Nat) (g : Volume → Nat → ℚ) (k : Nat) (v : Volume)
    {j : Nat} (hj : j < k)
    (hread : ∀ w : Volume,
      (∀ y' x' d', ¬(y' = y ∧ x' = x) → w y' x' d' = v y' x' d') →
      ∀ i, g w i = g v i) :
    ((List.range k).foldl (fun w i => update3 w y x i (g w i)) v) y x j = g v j := by
  induction k with
  | zero => omega
  | succ m ih =>
      rw [List.range_succ, List.foldl_append, List.foldl_cons, List.foldl_nil]
      rcases Nat.lt_or_ge j m with hjm | hjm
      · rw [show ∀ w : Volume, update3 w y x m (g w m) y x j = w y x j from
          fun w => by unfold update3; rw [if_neg]; omega]
        exact ih hjm
      · have hjm' : j = m := by omega
        subst hjm'
        unfold update3
        rw [if_pos ⟨rfl, rfl, rfl⟩]
        exact hread _ (fun y' x' d' h => foldl_update_frame y x g _ v h d') j

/-- `processPixel` leaves every pixel other than `(y, x)` unchanged. -/
lemma processPixel_frame {y' x' : Nat} (h : ¬(y' = y ∧ x' = x)) (d' : Nat) :
    processPixel H W D p1 p2 cost dy dx v y x y' x' d' = v y' x' d' := by
  unfold processPixel
  split
  · exact foldl_update_frame y x _ _ v h d'
  · exact foldl_update_frame y x _ _ v h d'

/-- Value written by `processPixel` at its own pixel, boundary branch. -/
lemma processPixel_val_out (hng : ¬ inGrid H W ((y : Int) - dy) ((x : Int) - dx))
    (hd : d < D) :
    processPixel H W D p1 p2 cost dy dx v y x y x d = cost y x d := by
  unfold processPixel
  rw [if_neg hng]
  exact foldl_update_get y x (fun _ i => cost y x i) D v hd (fun _ _ _ => rfl)

/-- Value written by `processPixel` at its own pixel, recurrence branch: the
predecessor is in the grid and is a different pixel, so the written value is
the SGM recurrence read off the pre-update volume. -/
lemma processPixel_val_in (hg : inGrid H W ((y : Int) - dy) ((x : Int) - dx))
    (hne : ¬(((y : Int) - dy).toNat = y ∧ ((x : Int) - dx).toNat = x))
    (hd : d < D) :
    processPixel H W D p1 p2 cost dy dx v y x y x d =
      cost y x d +
        (transMin D p1 p2 (v ((y : Int) - dy).toNat ((x : Int) - dx).toNat)
            (fiberMin D (v ((y : Int) - dy).toNat ((x : Int) - dx).toNat)) d -
          fiberMin D (v ((y : Int) - dy).toNat ((x : Int) - dx).toNat)) := by
  unfold processPixel
  rw [if_pos hg]
  refine foldl_update_get y x
    (fun w i => cost y x i +
      (transMin D p1 p2 (w ((y : Int) - dy).toNat ((x : Int) - dx).toNat)
        (fiberMin D (v ((y : Int) - dy).toNat ((x : Int) - dx).toNat)) i -
        fiberMin D (v ((y : Int) - dy).toNat ((x : Int) - dx).toNat)))
    D v hd ?_
  intro w hw i
  have hfib : w ((y : Int) - dy).toNat ((x : Int) - dx).toNat =
      v ((y : Int) - dy).toNat ((x : Int) - dx).toNat := by
    funext d''
    exact hw _ _ _ hne
  simp only [hfib]

/-- A fold of `processPixel` over pixels not containing `(y, x)` leaves pixel
`(y, x)` unchanged. -/
lemma foldl_process_frame (l : List (Nat × Nat)) (v : Volume)
    (h : ∀ q ∈ l, ¬(y = q.1 ∧ x = q.2)) (d' : Nat) :
    (l.foldl (fun w p => processPixel H W D p1 p2 cost dy dx w p.1 p.2) v)
        y x d' = v y x d' := by
  induction l generalizing v with
  | nil => rfl
  | cons a t ih =>
      rw [List.foldl_cons, ih _ (fun q hq => h q (List.mem_cons_of_mem a hq))]
      exact processPixel_frame (h a (List.mem_cons_self a t)) d'

/-- For a cardinal direction, the predecessor pixel is a different pixel. -/
lemma prev_ne (hcard : isCardinal dy dx)
    (hg : inGrid H W ((y : Int) - dy) ((x : Int) - dx)) :
    ¬(((y : Int) - dy).toNat = y ∧ ((x : Int) - dx).toNat = x) := by
  obtain ⟨hpy0, hpyH, hpx0, hpxW⟩ := hg
  rcases hcard with ⟨hdy, hdx | hdx⟩ | ⟨hdx, hdy | hdy⟩ <;> subst hdy <;>
    subst hdx <;> omega

lemma lex_lt {a b a' b' n : Nat} (h : a' < a) (hb : b' < n) :
    a' * n + b' < a * n + b := by
  calc a' * n + b' < a' * n + n := by omega
    _ = (a' + 1) * n := by ring
    _ ≤ a * n := Nat.mul_le_mul_right n (by omega)
    _ ≤ a * n + b := Nat.le_add_right _ _

lemma axisIdx_of_nonneg {n i : Nat} {dir : Int} (h : 0 ≤ dir) :
    axisIdx n dir i = i := by
  unfold axisIdx; rw [if_pos h]

lemma axisIdx_of_neg {n i : Nat} {dir : Int} (h : dir < 0) :
    axisIdx n dir i = n - 1 - i := by
  unfold axisIdx; rw [if_neg (by omega)]

/-- Along a cardinal direction, the predecessor pixel is visited strictly
earlier in the scan order. -/
lemma scanPos_prev_lt (hcard : isCardinal dy dx) (_hy : y < H) (hx : x < W)
    (hg : inGrid H W ((y : Int) - dy) ((x : Int) - dx)) :
    scanPos H W dy dx ((y : Int) - dy).toNat ((x : Int) - dx).toNat <
      scanPos H W dy dx y x := by
  obtain ⟨hpy0, hpyH, hpx0, hpxW⟩ := hg
  unfold scanPos
  rcases hcard with ⟨hdy, hdx | hdx⟩ | ⟨hdx, hdy | hdy⟩ <;> subst hdy <;> subst hdx
  · -- direction (0, 1): same row, previous column
    have e1 : ((y : Int) - 0).toNat = y := by omega
    have e2 : ((x : Int) - 1).toNat = x - 1 := by omega
    rw [e1, e2, axisIdx_of_nonneg (by omega), axisIdx_of_nonneg (by omega),
      axisIdx_of_nonneg (by omega)]
    exact Nat.add_lt_add_left (by omega) _
  · -- direction (0, -1): same row, next column
    have e1 : ((y : Int) - 0).toNat = y := by omega
    have e2 : ((x : Int) - (-1)).toNat = x + 1 := by omega
    rw [e1, e2, axisIdx_of_nonneg (by omega), axisIdx_of_neg (by omega),
      axisIdx_of_neg (by omega)]
    exact Nat.add_lt_add_left (by omega) _
  · -- direction (1, 0): previous row, same column
    have e1 : ((y : Int) - 1).toNat = y - 1 := by omega
    have e2 : ((x : Int) - 0).toNat = x := by omega
    rw [e1, e2, axisIdx_of_nonneg (by omega), axisIdx_of_nonneg (by omega),
      axisIdx_of_nonneg (by omega)]
    exact lex_lt (by omega) (by omega)
  · -- direction (-1, 0): next row, same column
    have e1 : ((y : Int) - (-1)).toNat = y + 1 := by omega
    have e2 : ((x : Int) - 0).toNat = x := by omega
    rw [e1, e2, axisIdx_of_neg (by omega), axisIdx_of_nonneg (by omega),
      axisIdx_of_neg (by omega)]
    exact lex_lt (by omega) (by omega)

end FoldLemmas

section AggSpec

variable {H W D : Nat} {p1 p2 : ℚ} {cost v : Volume} {dy dx : Int} {y x d : Nat}

/-- No pixel of the scan tail `l₂` coincides with `(y, x)` or with its
predecessor. -/
lemma tail_avoids {y' x' : Nat} (_hy' : y' < H) (hx' : x' < W)
    (hlt : scanPos H W dy dx y' x' ≤ scanPos H W dy dx y x)
    {l₂ : List (Nat × Nat)}
    (hl₂ : ∀ q ∈ l₂, ∃ j, scanPos H W dy dx y x < j ∧ j < H * W ∧
      q = pixAt H W dy dx j) :
    ∀ q ∈ l₂, ¬(y' = q.1 ∧ x' = q.2) := by
  rintro q hq ⟨h1, h2⟩
  obtain ⟨j, hj1, hj2, rfl⟩ := hl₂ q hq
  have hW : 0 < W := by omega
  have := scanPos_pixAt dy dx hW hj2
  rw [← h1, ← h2] at this
  omega

/-- Boundary case of the `aggregate_path_hls` recurrence: a pixel whose
predecessor falls outside the grid receives the raw matching cost. -/
lemma agg_boundary (hy : y < H) (hx : x < W)
    (hng : ¬ inGrid H W ((y : Int) - dy) ((x : Int) - dx)) (hd : d < D) :
    aggregate_path_hls H W D p1 p2 cost v dy dx y x d = cost y x d := by
  obtain ⟨l₁, l₂, hsplit, hl₂⟩ := scanOrder_split dy dx hy hx
  unfold aggregate_path_hls
  rw [hsplit, List.foldl_append, List.foldl_cons]
  rw [foldl_process_frame l₂ _ (tail_avoids hy hx (le_refl _) hl₂) d]
  exact processPixel_val_out hng hd

/-- Recurrence case of `aggregate_path_hls` for a cardinal direction: the
aggregated value at a pixel whose predecessor is in the grid satisfies the SGM
fixed-point equation read off the final aggregated volume itself. -/
lemma agg_step (hcard : isCardinal dy dx) (hy : y < H) (hx : x < W)
    (hg : inGrid H W ((y : Int) - dy) ((x : Int) - dx)) (hd : d < D) :
    aggregate_path_hls H W D p1 p2 cost v dy dx y x d =
      cost y x d +
        (transMin D p1 p2
            (aggregate_path_hls H W D p1 p2 cost v dy dx
              ((y : Int) - dy).toNat ((x : Int) - dx).toNat)
            (fiberMin D
              (aggregate_path_hls H W D p1 p2 cost v dy dx
                ((y : Int) - dy).toNat ((x : Int) - dx).toNat)) d -
          fiberMin D
            (aggregate_path_hls H W D p1 p2 cost v dy dx
              ((y : Int) - dy).toNat ((x : Int) - dx).toNat)) := by
  obtain ⟨hpy0, hpyH, hpx0, hpxW⟩ := hg
  have hpy : ((y : Int) - dy).toNat < H := by omega
  have hpx : ((x : Int) - dx).toNat < W := by omega
  have hne := prev_ne hcard ⟨hpy0, hpyH, hpx0, hpxW⟩
  have hprevlt := scanPos_prev_lt hcard hy hx ⟨hpy0, hpyH, hpx0, hpxW⟩
  obtain ⟨l₁, l₂, hsplit, hl₂⟩ := scanOrder_split dy dx hy hx
  unfold aggregate_path_hls
  rw [hsplit, List.foldl_append, List.foldl_cons]
  dsimp only
  have hfib : (l₂.foldl (fun w p => processPixel H W D p1 p2 cost dy dx w p.1 p.2)
        (processPixel H W D p1 p2 cost dy dx
          (l₁.foldl (fun w p => processPixel H W D p1 p2 cost dy dx w p.1 p.2) v)
          y x))
        ((y : Int) - dy).toNat ((x : Int) - dx).toNat =
      (l₁.foldl (fun w p => processPixel H W D p1 p2 cost dy dx w p.1 p.2) v)
        ((y : Int) - dy).toNat ((x : Int) - dx).toNat := by
    funext d'
    rw [foldl_process_frame l₂ _
      (tail_avoids hpy hpx (le_of_lt hprevlt) hl₂) d']
    exact processPixel_frame hne d'
  rw [hfib]
  rw [foldl_process_frame l₂ _ (tail_avoids hy hx (le_refl _) hl₂) d]
  exact processPixel_val_in ⟨hpy0, hpyH, hpx0, hpxW⟩ hne hd

end AggSpec

section MinLemmas

variable {D : Nat} {p1 p2 mp : ℚ} {f g : Nat → ℚ} {d : Nat}

/-- The running-minimum fold over a prefix of the fiber: lower bound and
attainment. -/
lemma foldl_min_spec (f : Nat → ℚ) (n : Nat) :
    (∀ j ≤ n, ((List.range n).foldl
        (fun m i => if f (i + 1) < m then f (i + 1) else m) (f 0)) ≤ f j) ∧
      ∃ j ≤ n, ((List.range n).foldl
        (fun m i => if f (i + 1) < m then f (i + 1) else m) (f 0)) = f j := by
  induction n with
  | zero =>
      refine ⟨fun j hj => ?_, ⟨0, le_refl 0, rfl⟩⟩
      have hj0 : j = 0 := Nat.le_zero.mp hj
      subst hj0
      simp
  | succ m ih =>
      rw [List.range_succ, List.foldl_append, List.foldl_cons, List.foldl_nil]
      obtain ⟨ihle, j₀, hj₀, ihmem⟩ := ih
      constructor
      · intro j hj
        split
        next hlt =>
          rcases Nat.lt_or_ge j (m + 1) with h | h
          · exact le_trans (le_of_lt hlt) (ihle j (by omega))
          · have hjm : j = m + 1 := by omega
            subst hjm
            exact le_refl _
        next hge =>
          rcases Nat.lt_or_ge j (m + 1) with h | h
          · exact ihle j (by omega)
          · have hjm : j = m + 1 := by omega
            subst hjm
            exact le_of_not_lt hge
      · split
        next => exact ⟨m + 1, le_refl _, rfl⟩
        next => exact ⟨j₀, by omega, ihmem⟩

lemma fiberMin_le (D : Nat) (f : Nat → ℚ) {d : Nat} (hD : 0 < D)
    (hj : d < D) : fiberMin D f ≤ f d := by
  unfold fiberMin
  exact (foldl_min_spec f (D - 1)).1 d (by omega)

lemma fiberMin_mem (D : Nat) (f : Nat → ℚ) (hD : 0 < D) :
    ∃ j < D, fiberMin D f = f j := by
  obtain ⟨j, hj, hmem⟩ := (foldl_min_spec f (D - 1)).2
  exact ⟨j, by omega, hmem⟩

lemma foldl_min_congr (l : List Nat) (a : ℚ)
    (h : ∀ i ∈ l, f (i + 1) = g (i + 1)) :
    l.foldl (fun m i => if f (i + 1) < m then f (i + 1) else m) a =
      l.foldl (fun m i => if g (i + 1) < m then g (i + 1) else m) a := by
  induction l generalizing a with
  | nil => rfl
  | cons i t ih =>
      rw [List.foldl_cons, List.foldl_cons, h i (List.mem_cons_self i t)]
      exact ih _ (fun j hj => h j (List.mem_cons_of_mem i hj))

lemma fiberMin_congr (hD : 0 < D) (h : ∀ i < D, f i = g i) :
    fiberMin D f = fiberMin D g := by
  unfold fiberMin
  rw [h 0 hD]
  exact foldl_min_congr _ _ (fun i hi => h (i + 1)
    (by have := List.mem_range.mp hi; omega))

lemma transMin_le_same (D : Nat) (p1 p2 : ℚ) (f : Nat → ℚ) (mp : ℚ)
    (d : Nat) : transMin D p1 p2 f mp d ≤ f d := by
  unfold transMin
  dsimp only
  split_ifs <;> linarith

lemma transMin_le_jump : transMin D p1 p2 f mp d ≤ mp + p2 := by
  unfold transMin
  dsimp only
  split_ifs <;> linarith

lemma transMin_ge {c : ℚ} (h1 : c ≤ f d)
    (h2 : 0 < d → c ≤ f (d - 1) + p1) (h3 : d < D - 1 → c ≤ f (d + 1) + p1)
    (h4 : c ≤ mp + p2) (h5 : c ≤ 2000) :
    c ≤ transMin D p1 p2 f mp d := by
  unfold transMin
  dsimp only
  split_ifs <;> first
    | exact h4
    | exact h1
    | exact h5
    | exact h2 (by assumption)
    | exact h3 (by assumption)

lemma transMin_congr (hD : d < D) (h : ∀ i < D, f i = g i) :
    transMin D p1 p2 f mp d = transMin D p1 p2 g mp d := by
  unfold transMin
  dsimp only
  have hsame : f d = g d := h d hD
  have hdown : (if 0 < d then f (d - 1) + p1 else 2000) =
      (if 0 < d then g (d - 1) + p1 else 2000) := by
    split
    · rw [h (d - 1) (by omega)]
    · rfl
  have hup : (if d < D - 1 then f (d + 1) + p1 else 2000) =
      (if d < D - 1 then g (d + 1) + p1 else 2000) := by
    split
    · rw [h (d + 1) (by omega)]
    · rfl
  rw [hsame, hdown, hup]

lemma ite_lt_eq_min (a b : ℚ) : (if b < a then b else a) = min a b := by
  split
  next h => exact (min_eq_right (le_of_lt h)).symm
  next h => exact (min_eq_left (le_of_not_lt h)).symm

/-- The sequential `if`-chain of `aggregate_path_hls` computes exactly the
minimum of the four transition candidates. -/
lemma transMin_eq_min :
    transMin D p1 p2 f mp d =
      min (min (f d) (if 0 < d then f (d - 1) + p1 else 2000))
        (min (if d < D - 1 then f (d + 1) + p1 else 2000) (mp + p2)) := by
  unfold transMin
  dsimp only
  rw [ite_lt_eq_min, ite_lt_eq_min, ite_lt_eq_min, min_assoc]

end MinLemmas

section SadSpec

variable {H W D : Nat} {left right : Image} {v : Volume} {y x d : Nat}

lemma sadPixel_frame {y' x' : Nat} (h : ¬(y' = y ∧ x' = x)) (d' : Nat) :
    sadPixel W D left right v y x y' x' d' = v y' x' d' := by
  unfold sadPixel
  exact foldl_update_frame y x _ _ v h d'

lemma sadPixel_val (hd : d < D) :
    sadPixel W D left right v y x y x d =
      if 0 ≤ (x : Int) - (d : Int) then
        |left (y * W + x) - right (y * W + (x - d))|
      else 1000 := by
  unfold sadPixel
  exact foldl_update_get y x _ D v hd (fun _ _ _ => rfl)

lemma foldl_sad_frame (l : List (Nat × Nat)) (v : Volume)
    (h : ∀ q ∈ l, ¬(y = q.1 ∧ x = q.2)) (d' : Nat) :
    (l.foldl (fun w p => sadPixel W D left right w p.1 p.2) v) y x d' =
      v y x d' := by
  induction l generalizing v with
  | nil => rfl
  | cons a t ih =>
      rw [List.foldl_cons, ih _ (fun q hq => h q (List.mem_cons_of_mem a hq))]
      exact sadPixel_frame (h a (List.mem_cons_self a t)) d'

/-- Characterization of `compute_sad_cost_hls`: inside the grid the cost
volume holds the absolute difference at shifted columns, or the fixed `1000`
penalty when the shift leaves the image. -/
lemma sad_spec (hy : y < H) (hx : x < W) (hd : d < D) :
    compute_sad_cost_hls H W D left right v y x d =
      if 0 ≤ (x : Int) - (d : Int) then
        |left (y * W + x) - right (y * W + (x - d))|
      else 1000 := by
  obtain ⟨l₁, l₂, hsplit, hl₂⟩ := scanOrder_split 1 1 hy hx
  unfold compute_sad_cost_hls
  rw [hsplit, List.foldl_append, List.foldl_cons]
  rw [foldl_sad_frame l₂ _ (tail_avoids hy hx (le_refl _) hl₂) d]
  exact sadPixel_val hd

end SadSpec

section DistLemmas

variable {H W : Nat} {dy dx : Int} {y x : Nat}

lemma dist_prev_lt (hcard : isCardinal dy dx) (_hy : y < H) (_hx : x < W)
    (hg : inGrid H W ((y : Int) - dy) ((x : Int) - dx)) :
    dist H W dy dx ((y : Int) - dy).toNat ((x : Int) - dx).toNat <
      dist H W dy dx y x := by
  obtain ⟨hpy0, hpyH, hpx0, hpxW⟩ := hg
  unfold dist
  rcases hcard with ⟨hdy, hdx | hdx⟩ | ⟨hdx, hdy | hdy⟩ <;> subst hdy <;>
    subst hdx <;> simp <;> omega

end DistLemmas

section PathInduction

variable {H W D : Nat} {p1 p2 : ℚ} {cost v : Volume} {dy dx : Int}

/-- Bounds along every aggregation path: when the raw costs are non-negative
and leave headroom `p2` below the `2000` unreachable sentinel, every
aggregated cell lies between its raw cost and its raw cost plus `p2`. -/
lemma agg_bounds (hcard : isCardinal dy dx) (hp1 : 0 ≤ p1) (hp2 : 0 ≤ p2)
    (hcost : ∀ y x d, y < H → x < W → d < D →
      0 ≤ cost y x d ∧ cost y x d + p2 ≤ 2000) :
    ∀ y x d, y < H → x < W → d < D →
      cost y x d ≤ aggregate_path_hls H W D p1 p2 cost v dy dx y x d ∧
        aggregate_path_hls H W D p1 p2 cost v dy dx y x d ≤ cost y x d + p2 := by
  suffices h : ∀ n y x, dist H W dy dx y x ≤ n → ∀ d, y < H → x < W → d < D →
      cost y x d ≤ aggregate_path_hls H W D p1 p2 cost v dy dx y x d ∧
        aggregate_path_hls H W D p1 p2 cost v dy dx y x d ≤ cost y x d + p2 by
    exact fun y x d hy hx hd =>
      h (dist H W dy dx y x) y x (le_refl _) d hy hx hd
  intro n
  induction n with
  | zero =>
      intro y x hdist d hy hx hd
      by_cases hg : inGrid H W ((y : Int) - dy) ((x : Int) - dx)
      · exact absurd (dist_prev_lt hcard hy hx hg) (by omega)
      · rw [agg_boundary hy hx hg hd]
        exact ⟨le_refl _, by linarith⟩
  | succ m ih =>
      intro y x hdist d hy hx hd
      by_cases hg : inGrid H W ((y : Int) - dy) ((x : Int) - dx)
      · have hD : 0 < D := by omega
        obtain ⟨hpy0, hpyH, hpx0, hpxW⟩ := id hg
        have hpy : ((y : Int) - dy).toNat < H := by omega
        have hpx : ((x : Int) - dx).toNat < W := by omega
        have hdlt := dist_prev_lt hcard hy hx hg
        have hprev : ∀ d' < D,
            cost ((y : Int) - dy).toNat ((x : Int) - dx).toNat d' ≤
              aggregate_path_hls H W D p1 p2 cost v dy dx
                ((y : Int) - dy).toNat ((x : Int) - dx).toNat d' ∧
              aggregate_path_hls H W D p1 p2 cost v dy dx
                ((y : Int) - dy).toNat ((x : Int) - dx).toNat d' ≤
                cost ((y : Int) - dy).toNat ((x : Int) - dx).toNat d' + p2 :=
          fun d' hd' => ih _ _ (by omega) d' hpy hpx hd'
        rw [agg_step hcard hy hx hg hd]
        set F := aggregate_path_hls H W D p1 p2 cost v dy dx
          ((y : Int) - dy).toNat ((x : Int) - dx).toNat with hF
        obtain ⟨j, hj, hmem⟩ := fiberMin_mem D F hD
        have hmp0 : 0 ≤ fiberMin D F := by
          rw [hmem]
          exact le_trans
            (hcost _ _ j hpy hpx hj).1 (hprev j hj).1
        have hmp2000 : fiberMin D F ≤ 2000 := by
          have h1 := fiberMin_le D F hD hD
          have h2 := (hprev 0 hD).2
          have h3 := (hcost _ _ 0 hpy hpx hD).2
          linarith
        have htm_le : transMin D p1 p2 F (fiberMin D F) d ≤ fiberMin D F + p2 :=
          transMin_le_jump
        have htm_ge : fiberMin D F ≤ transMin D p1 p2 F (fiberMin D F) d := by
          refine transMin_ge (fiberMin_le D F hD hd) ?_ ?_ (by linarith) hmp2000
          · intro h0
            have := fiberMin_le D F hD (show d - 1 < D by omega)
            linarith
          · intro hdD
            have := fiberMin_le D F hD (show d + 1 < D by omega)
            linarith
        constructor <;> linarith
      · rw [agg_boundary hy hx hg hd]
        exact ⟨le_refl _, by linarith⟩

/-- Along every aggregation path, if the raw cost at disparity `0` is zero at
every pixel and all raw costs are non-negative, then every aggregated cell is
non-negative and the aggregated cost at disparity `0` is exactly zero. -/
lemma agg_zero (v : Volume) (dy dx : Int)
    (hcard : isCardinal dy dx) (hp1 : 0 ≤ p1) (hp2 : 0 ≤ p2)
    (hcost0 : ∀ y x, y < H → x < W → cost y x 0 = 0)
    (hcostnn : ∀ y x d, y < H → x < W → d < D → 0 ≤ cost y x d) :
    ∀ y x, y < H → x < W →
      (∀ d < D, 0 ≤ aggregate_path_hls H W D p1 p2 cost v dy dx y x d) ∧
        (0 < D → aggregate_path_hls H W D p1 p2 cost v dy dx y x 0 = 0) := by
  suffices h : ∀ n y x, dist H W dy dx y x ≤ n → y < H → x < W →
      (∀ d < D, 0 ≤ aggregate_path_hls H W D p1 p2 cost v dy dx y x d) ∧
        (0 < D → aggregate_path_hls H W D p1 p2 cost v dy dx y x 0 = 0) by
    exact fun y x hy hx => h (dist H W dy dx y x) y x (le_refl _) hy hx
  intro n
  induction n with
  | zero =>
      intro y x hdist hy hx
      by_cases hg : inGrid H W ((y : Int) - dy) ((x : Int) - dx)
      · exact absurd (dist_prev_lt hcard hy hx hg) (by omega)
      · constructor
        · intro d hd
          rw [agg_boundary hy hx hg hd]
          exact hcostnn y x d hy hx hd
        · intro hD
          rw [agg_boundary hy hx hg hD]
          exact hcost0 y x hy hx
  | succ m ih =>
      intro y x hdist hy hx
      by_cases hg : inGrid H W ((y : Int) - dy) ((x : Int) - dx)
      · obtain ⟨hpy0, hpyH, hpx0, hpxW⟩ := id hg
        have hpy : ((y : Int) - dy).toNat < H := by omega
        have hpx : ((x : Int) - dx).toNat < W := by omega
        have hdlt := dist_prev_lt hcard hy hx hg
        obtain ⟨hprevnn, hprev0⟩ := ih _ _ (by omega) hpy hpx
        constructor
        · intro d hd
          have hD : 0 < D := by omega
          rw [agg_step hcard hy hx hg hd]
          set F := aggregate_path_hls H W D p1 p2 cost v dy dx
            ((y : Int) - dy).toNat ((x : Int) - dx).toNat with hF
          have hmp : fiberMin D F = 0 := by
            have h1 := fiberMin_le D F hD hD
            obtain ⟨j, hj, hmem⟩ := fiberMin_mem D F hD
            have h2 := hprevnn j hj
            have h3 := hprev0 hD
            rw [hmem]
            rw [hF] at h3 ⊢
            linarith [hmem ▸ h1]
          rw [hmp]
          have htm : (0 : ℚ) ≤ transMin D p1 p2 F 0 d := by
            refine transMin_ge (hprevnn d hd) ?_ ?_ (by linarith) (by norm_num)
            · intro h0
              have := hprevnn (d - 1) (by omega)
              linarith
            · intro hdD
              have := hprevnn (d + 1) (by omega)
              linarith
          have hc := hcostnn y x d hy hx hd
          linarith
        · intro hD
          rw [agg_step hcard hy hx hg hD]
          set F := aggregate_path_hls H W D p1 p2 cost v dy dx
            ((y : Int) - dy).toNat ((x : Int) - dx).toNat with hF
          have hF0 : F 0 = 0 := hprev0 hD
          have hmp : fiberMin D F = 0 := by
            have h1 := fiberMin_le D F hD hD
            obtain ⟨j, hj, hmem⟩ := fiberMin_mem D F hD
            have h2 := hprevnn j hj
            rw [hmem]
            linarith [hmem ▸ h1, hF0]
          have htm_le : transMin D p1 p2 F (fiberMin D F) 0 ≤ 0 := by
            have := transMin_le_same D p1 p2 F (fiberMin D F) 0
            rw [hF0] at this
            exact this
          have htm_ge : (0 : ℚ) ≤ transMin D p1 p2 F (fiberMin D F) 0 := by
            refine transMin_ge (by rw [hF0]) ?_ ?_ (by linarith [hmp]) (by norm_num)
            · intro h0
              exact absurd h0 (lt_irrefl 0)
            · intro hdD
              have := hprevnn 1 (by omega)
              linarith
          have hc0 := hcost0 y x hy hx
          linarith
      · constructor
        · intro d hd
          rw [agg_boundary hy hx hg hd]
          exact hcostnn y x d hy hx hd
        · intro hD
          rw [agg_boundary hy hx hg hD]
          exact hcost0 y x hy hx

/-- The in-grid cells of the aggregated volume depend only on the in-grid
cells of the cost volume: the initial contents of the path array and any
out-of-grid cost cells are irrelevant. -/
lemma agg_unique (p1 p2 : ℚ) (v v₂ : Volume) (dy dx : Int) {cost₂ : Volume}
    (hcard : isCardinal dy dx)
    (hc : ∀ y x d, y < H → x < W → d < D → cost y x d = cost₂ y x d) :
    ∀ y x d, y < H → x < W → d < D →
      aggregate_path_hls H W D p1 p2 cost v dy dx y x d =
        aggregate_path_hls H W D p1 p2 cost₂ v₂ dy dx y x d := by
  suffices h : ∀ n y x, dist H W dy dx y x ≤ n → ∀ d, y < H → x < W → d < D →
      aggregate_path_hls H W D p1 p2 cost v dy dx y x d =
        aggregate_path_hls H W D p1 p2 cost₂ v₂ dy dx y x d by
    exact fun y x d hy hx hd =>
      h (dist H W dy dx y x) y x (le_refl _) d hy hx hd
  intro n
  induction n with
  | zero =>
      intro y x hdist d hy hx hd
      by_cases hg : inGrid H W ((y : Int) - dy) ((x : Int) - dx)
      · exact absurd (dist_prev_lt hcard hy hx hg) (by omega)
      · rw [agg_boundary hy hx hg hd, agg_boundary hy hx hg hd]
        exact hc y x d hy hx hd
  | succ m ih =>
      intro y x hdist d hy hx hd
      by_cases hg : inGrid H W ((y : Int) - dy) ((x : Int) - dx)
      · have hD : 0 < D := by omega
        obtain ⟨hpy0, hpyH, hpx0, hpxW⟩ := id hg
        have hpy : ((y : Int) - dy).toNat < H := by omega
        have hpx : ((x : Int) - dx).toNat < W := by omega
        have hdlt := dist_prev_lt hcard hy hx hg
        have hfibeq : ∀ i < D,
            aggregate_path_hls H W D p1 p2 cost v dy dx
              ((y : Int) - dy).toNat ((x : Int) - dx).toNat i =
            aggregate_path_hls H W D p1 p2 cost₂ v₂ dy dx
              ((y : Int) - dy).toNat ((x : Int) - dx).toNat i :=
          fun i hi => ih _ _ (by omega) i hpy hpx hi
        rw [agg_step hcard hy hx hg hd, agg_step hcard hy hx hg hd]
        rw [hc y x d hy hx hd,
          fiberMin_congr hD hfibeq, transMin_congr hd hfibeq]
      · rw [agg_boundary hy hx hg hd, agg_boundary hy hx hg hd]
        exact hc y x d hy hx hd

end PathInduction

section WtaLemmas

variable {D : Nat} {t : Nat → ℚ}

/-- State of the winner-take-all scan after `k` disparities: the running
minimum is a lower bound of everything seen, and either nothing beat the
`1e9` initialization (best still `0`), or the state records the first
disparity attaining the running minimum. -/
lemma wta_fold (t : Nat → ℚ) (k : Nat) :
    ∃ m b, (List.range k).foldl (wtaStep t) ((10 : ℚ) ^ 9, 0) = (m, b) ∧
      (∀ j < k, m ≤ t j) ∧
      ((m = 10 ^ 9 ∧ b = 0) ∨ (b < k ∧ m = t b ∧ ∀ j < b, m < t j)) := by
  induction k with
  | zero =>
      exact ⟨10 ^ 9, 0, rfl, fun j hj => absurd hj (Nat.not_lt_zero j),
        Or.inl ⟨rfl, rfl⟩⟩
  | succ k ih =>
      obtain ⟨m, b, heq, hle, hcase⟩ := ih
      rw [List.range_succ, List.foldl_append, List.foldl_cons, List.foldl_nil,
        heq]
      unfold wtaStep
      dsimp only
      by_cases hlt : t k < m
      · rw [if_pos hlt]
        refine ⟨t k, k, rfl, ?_, Or.inr ⟨by omega, rfl, ?_⟩⟩
        · intro j hj
          rcases Nat.lt_or_ge j k with h | h
          · exact le_of_lt (lt_of_lt_of_le hlt (hle j h))
          · have hjk : j = k := by omega
            subst hjk
            exact le_refl _
        · intro j hj
          exact lt_of_lt_of_le hlt (hle j hj)
      · rw [if_neg hlt]
        refine ⟨m, b, rfl, ?_, ?_⟩
        · intro j hj
          rcases Nat.lt_or_ge j k with h | h
          · exact hle j h
          · have hjk : j = k := by omega
            subst hjk
            exact le_of_not_lt hlt
        · rcases hcase with h | ⟨hb, hm, hmin⟩
          · exact Or.inl h
          · exact Or.inr ⟨by omega, hm, hmin⟩

/-- The selected disparity is always inside `[0, D)` for positive `D`. -/
lemma selectDisparity_lt (hD : 0 < D) : selectDisparity D t < D := by
  unfold selectDisparity
  obtain ⟨m, b, heq, _, hcase⟩ := wta_fold t D
  rw [heq]
  rcases hcase with ⟨_, hb⟩ | ⟨hb, _, _⟩
  · dsimp only
    omega
  · exact hb

/-- When some total beats the `1e9` initialization, the winner-take-all scan
returns the least disparity attaining the minimum total. -/
lemma selectDisparity_argmin (hex : ∃ j, j < D ∧ t j < 10 ^ 9) :
    (∀ j < D, t (selectDisparity D t) ≤ t j) ∧
      ∀ j < D, t j = t (selectDisparity D t) → selectDisparity D t ≤ j := by
  unfold selectDisparity
  obtain ⟨m, b, heq, hle, hcase⟩ := wta_fold t D
  rw [heq]
  dsimp only
  obtain ⟨j₀, hj₀, hj₀lt⟩ := hex
  rcases hcase with ⟨hm, _⟩ | ⟨_, hm, hmin⟩
  · exfalso
    have := hle j₀ hj₀
    rw [hm] at this
    linarith
  · constructor
    · intro j hj
      exact hm ▸ hle j hj
    · intro j hj hjeq
      by_contra hnb
      have hjb : j < b := by omega
      have := hmin j hjb
      rw [hjeq, ← hm] at this
      exact lt_irrefl m this

lemma wta_fold_congr {t₂ : Nat → ℚ} (l : List Nat) (s : ℚ × Nat)
    (h : ∀ i ∈ l, t i = t₂ i) :
    l.foldl (wtaStep t) s = l.foldl (wtaStep t₂) s := by
  induction l generalizing s with
  | nil => rfl
  | cons a t' ih =>
      rw [List.foldl_cons, List.foldl_cons]
      have hstep : wtaStep t s a = wtaStep t₂ s a := by
        unfold wtaStep
        rw [h a (List.mem_cons_self a t')]
      rw [hstep]
      exact ih _ (fun i hi => h i (List.mem_cons_of_mem a hi))

/-- The selected disparity only depends on the totals at `d < D`. -/
lemma selectDisparity_congr {t₂ : Nat → ℚ} (h : ∀ j < D, t j = t₂ j) :
    selectDisparity D t = selectDisparity D t₂ := by
  unfold selectDisparity
  rw [wta_fold_congr (List.range D) _
    (fun i hi => h i (List.mem_range.mp hi))]

end WtaLemmas

section GrayLemmas

variable {H W D : Nat} {left right : Image} {v vC vL vR vT vB : Volume}
variable {dy dx : Int} {y x d : Nat}

lemma sad_nonneg (hy : y < H) (hx : x < W) (hd : d < D) :
    0 ≤ compute_sad_cost_hls H W D left right v y x d := by
  rw [sad_spec hy hx hd]
  split
  · exact abs_nonneg _
  · norm_num

lemma gray_cost_le (hl : ∀ i, 0 ≤ left i ∧ left i ≤ 255)
    (hr : ∀ i, 0 ≤ right i ∧ right i ≤ 255)
    (hy : y < H) (hx : x < W) (hd : d < D) :
    compute_sad_cost_hls H W D left right v y x d ≤ 1000 := by
  rw [sad_spec hy hx hd]
  split
  · obtain ⟨ha0, ha1⟩ := hl (y * W + x)
    obtain ⟨hb0, hb1⟩ := hr (y * W + (x - d))
    exact abs_le.mpr ⟨by linarith, by linarith⟩
  · norm_num

lemma gray_cost0_le (hl : ∀ i, 0 ≤ left i ∧ left i ≤ 255)
    (hr : ∀ i, 0 ≤ right i ∧ right i ≤ 255)
    (hy : y < H) (hx : x < W) (hD : 0 < D) :
    compute_sad_cost_hls H W D left right v y x 0 ≤ 255 := by
  rw [sad_spec hy hx hD]
  rw [if_pos (by omega)]
  obtain ⟨ha0, ha1⟩ := hl (y * W + x)
  obtain ⟨hb0, hb1⟩ := hr (y * W + (x - 0))
  exact abs_le.mpr ⟨by linarith, by linarith⟩

/-- For grayscale inputs every aggregated cell lies between its raw cost and
its raw cost plus `P2_PENALTY`, for each of the four directions. -/
lemma gray_agg_bounds (vC v : Volume) (dy dx : Int)
    (hcard : isCardinal dy dx)
    (hl : ∀ i, 0 ≤ left i ∧ left i ≤ 255)
    (hr : ∀ i, 0 ≤ right i ∧ right i ≤ 255)
    (hy : y < H) (hx : x < W) (hd : d < D) :
    compute_sad_cost_hls H W D left right vC y x d ≤
        aggregate_path_hls H W D P1_PENALTY P2_PENALTY
          (compute_sad_cost_hls H W D left right vC) v dy dx y x d ∧
      aggregate_path_hls H W D P1_PENALTY P2_PENALTY
          (compute_sad_cost_hls H W D left right vC) v dy dx y x d ≤
        compute_sad_cost_hls H W D left right vC y x d + P2_PENALTY := by
  refine agg_bounds hcard (by norm_num [P1_PENALTY]) (by norm_num [P2_PENALTY])
    (fun y' x' d' hy' hx' hd' => ⟨sad_nonneg hy' hx' hd', ?_⟩) y x d hy hx hd
  have := gray_cost_le (v := vC) hl hr hy' hx' hd'
  norm_num [P2_PENALTY]
  linarith

/-- Grayscale upper bound on the summed total of the four paths. -/
lemma gray_tot_le (vC vL vR vT vB : Volume)
    (hl : ∀ i, 0 ≤ left i ∧ left i ≤ 255)
    (hr : ∀ i, 0 ≤ right i ∧ right i ≤ 255)
    (hy : y < H) (hx : x < W) (hd : d < D) :
    totalCost H W D P1_PENALTY P2_PENALTY left right vC vL vR vT vB y x d ≤
      4 * compute_sad_cost_hls H W D left right vC y x d + 4 * P2_PENALTY := by
  unfold totalCost
  have h1 := (gray_agg_bounds vC vL (0) (1) (by decide) hl hr hy hx hd).2
  have h2 := (gray_agg_bounds vC vR (0) (-1) (by decide) hl hr hy hx hd).2
  have h3 := (gray_agg_bounds vC vT (1) (0) (by decide) hl hr hy hx hd).2
  have h4 := (gray_agg_bounds vC vB (-1) (0) (by decide) hl hr hy hx hd).2
  linarith

/-- Grayscale lower bound on the summed total of the four paths. -/
lemma gray_tot_ge (vC vL vR vT vB : Volume)
    (hl : ∀ i, 0 ≤ left i ∧ left i ≤ 255)
    (hr : ∀ i, 0 ≤ right i ∧ right i ≤ 255)
    (hy : y < H) (hx : x < W) (hd : d < D) :
    4 * compute_sad_cost_hls H W D left right vC y x d ≤
      totalCost H W D P1_PENALTY P2_PENALTY left right vC vL vR vT vB y x d := by
  unfold totalCost
  have h1 := (gray_agg_bounds vC vL (0) (1) (by decide) hl hr hy hx hd).1
  have h2 := (gray_agg_bounds vC vR (0) (-1) (by decide) hl hr hy hx hd).1
  have h3 := (gray_agg_bounds vC vT (1) (0) (by decide) hl hr hy hx hd).1
  have h4 := (gray_agg_bounds vC vB (-1) (0) (by decide) hl hr hy hx hd).1
  linarith

/-- The top-level function is definitionally the winner-take-all selection
over the summed totals. -/
lemma sgm_eq_select (H W D : Nat) (p1 p2 : ℚ) (left right : Image)
    (vC vL vR vT vB : Volume) (y x : Nat) :
    sgm_hls H W D p1 p2 left right vC vL vR vT vB y x =
      selectDisparity D (totalCost H W D p1 p2 left right vC vL vR vT vB y x) :=
  rfl

end GrayLemmas

/-- C1: for every pixel `(y, x)` whose predecessor `(y - dy, x - dx)` lies
inside the grid, and for every disparity `d < D`, the aggregated cost produced
by `aggregate_path_hls` equals `cost[y][x][d] + transitionMin - minPrev`,
where `minPrev = fiberMin` is the minimum over all disparities of the
predecessor's aggregated fiber (first two conjuncts), and `transitionMin` is
the minimum of four candidates: the predecessor's aggregated cost at the same
disparity; at `d - 1` plus `p1` (the very-large sentinel `2000` when `d = 0`);
at `d + 1` plus `p1` (sentinel when `d = D - 1`); and `minPrev + p2`. -/
theorem claim_C1 (H W D : Nat) (p1 p2 : ℚ) (cost v : Volume) (dy dx : Int)
    (y x d py px : Nat) (hcard : isCardinal dy dx)
    (hy : y < H) (hx : x < W) (hd : d < D)
    (hpy : (py : Int) = (y : Int) - dy) (hpx : (px : Int) = (x : Int) - dx)
    (hpyH : py < H) (hpxW : px < W) :
    (∀ j < D,
        fiberMin D (aggregate_path_hls H W D p1 p2 cost v dy dx py px) ≤
          aggregate_path_hls H W D p1 p2 cost v dy dx py px j) ∧
      (∃ j < D,
        fiberMin D (aggregate_path_hls H W D p1 p2 cost v dy dx py px) =
          aggregate_path_hls H W D p1 p2 cost v dy dx py px j) ∧
      aggregate_path_hls H W D p1 p2 cost v dy dx y x d =
        cost y x d +
          (min
            (min (aggregate_path_hls H W D p1 p2 cost v dy dx py px d)
              (if 0 < d then
                aggregate_path_hls H W D p1 p2 cost v dy dx py px (d - 1) + p1
              else 2000))
            (min
              (if d < D - 1 then
                aggregate_path_hls H W D p1 p2 cost v dy dx py px (d + 1) + p1
              else 2000)
              (fiberMin D (aggregate_path_hls H W D p1 p2 cost v dy dx py px) +
                p2)) -
            fiberMin D (aggregate_path_hls H W D p1 p2 cost v dy dx py px)) := by
  have hD : 0 < D := by omega
  have hg : inGrid H W ((y : Int) - dy) ((x : Int) - dx) := by
    unfold inGrid
    refine ⟨by omega, by omega, by omega, by omega⟩
  have hpyN : ((y : Int) - dy).toNat = py := by omega
  have hpxN : ((x : Int) - dx).toNat = px := by omega
  refine ⟨fun j hj => fiberMin_le D _ hD hj, fiberMin_mem D _ hD, ?_⟩
  have hstep := @agg_step H W D p1 p2 cost v dy dx y x d hcard hy hx hg hd
  rw [hpyN, hpxN] at hstep
  rw [hstep, transMin_eq_min]

/-- Witness for C1 at a concrete instance: grid `1 × 2`, two disparities,
direction left-to-right, pixel `(0, 1)` with predecessor `(0, 0)`. -/
theorem claim_C1_witness :
    isCardinal 0 1 ∧
      ((∀ j < 2,
          fiberMin 2 (aggregate_path_hls 1 2 2 8 128 (fun _ _ _ => 0)
              (fun _ _ _ => 0) 0 1 0 0) ≤
            aggregate_path_hls 1 2 2 8 128 (fun _ _ _ => 0)
              (fun _ _ _ => 0) 0 1 0 0 j) ∧
        (∃ j < 2,
          fiberMin 2 (aggregate_path_hls 1 2 2 8 128 (fun _ _ _ => 0)
              (fun _ _ _ => 0) 0 1 0 0) =
            aggregate_path_hls 1 2 2 8 128 (fun _ _ _ => 0)
              (fun _ _ _ => 0) 0 1 0 0 j) ∧
        aggregate_path_hls 1 2 2 8 128 (fun _ _ _ => 0)
            (fun _ _ _ => 0) 0 1 0 1 0 =
          (fun _ _ _ => (0 : ℚ)) 0 1 0 +
            (min
              (min (aggregate_path_hls 1 2 2 8 128 (fun _ _ _ => 0)
                  (fun _ _ _ => 0) 0 1 0 0 0)
                (if 0 < 0 then
                  aggregate_path_hls 1 2 2 8 128 (fun _ _ _ => 0)
                    (fun _ _ _ => 0) 0 1 0 0 (0 - 1) + 8
                else 2000))
              (min
                (if 0 < 2 - 1 then
                  aggregate_path_hls 1 2 2 8 128 (fun _ _ _ => 0)
                    (fun _ _ _ => 0) 0 1 0 0 (0 + 1) + 8
                else 2000)
                (fiberMin 2 (aggregate_path_hls 1 2 2 8 128 (fun _ _ _ => 0)
                    (fun _ _ _ => 0) 0 1 0 0) + 128)) -
              fiberMin 2 (aggregate_path_hls 1 2 2 8 128 (fun _ _ _ => 0)
                  (fun _ _ _ => 0) 0 1 0 0))) :=
  ⟨by decide,
    claim_C1 1 2 2 8 128 (fun _ _ _ => 0) (fun _ _ _ => 0) 0 1 0 1 0 0 0
      (by decide) (by decide) (by decide) (by decide) (by decide) (by decide)
      (by decide) (by decide)⟩

/-- C2: the cost volume built by `compute_sad_cost_hls` holds the absolute
difference `|left[y][x] - right[y][x-d]|` when `col - d >= 0`, and exactly the
fixed `1000` maximum-penalty constant when `col < d`. -/
theorem claim_C2 (H W D : Nat) (left right : Image) (v : Volume) (y x d : Nat)
    (hy : y < H) (hx : x < W) (hd : d < D) :
    (d ≤ x → compute_sad_cost_hls H W D left right v y x d =
        |left (y * W + x) - right (y * W + (x - d))|) ∧
      (x < d → compute_sad_cost_hls H W D left right v y x d = 1000) := by
  constructor <;> intro h <;> rw [sad_spec hy hx hd]
  · rw [if_pos (by omega)]
  · rw [if_neg (by omega)]

/-- Witness for C2 at a concrete instance: grid `1 × 2`, two disparities,
pixel `(0, 1)`, disparity `1` (the in-bounds branch is exercised and the
out-of-bounds implication is vacuous there). -/
theorem claim_C2_witness :
    (1 ≤ 1 → compute_sad_cost_hls 1 2 2 (fun (i : Nat) => (i : ℚ))
        (fun (i : Nat) => (i : ℚ)) (fun _ _ _ => 0) 0 1 1 =
        |(fun (i : Nat) => (i : ℚ)) (0 * 2 + 1) -
          (fun (i : Nat) => (i : ℚ)) (0 * 2 + (1 - 1))|) ∧
      (1 < 1 → compute_sad_cost_hls 1 2 2 (fun (i : Nat) => (i : ℚ))
        (fun (i : Nat) => (i : ℚ)) (fun _ _ _ => 0) 0 1 1 = 1000) :=
  claim_C2 1 2 2 (fun (i : Nat) => (i : ℚ)) (fun (i : Nat) => (i : ℚ))
    (fun _ _ _ => 0) 0 1 1 (by decide) (by decide) (by decide)

/-- C3: at a pixel whose predecessor `(y - dy, x - dx)` lies outside the grid
(the first pixel scanned along a path), `aggregate_path_hls` stores exactly
the raw matching cost, for every disparity. -/
theorem claim_C3 (H W D : Nat) (p1 p2 : ℚ) (cost v : Volume) (dy dx : Int)
    (y x d : Nat) (hy : y < H) (hx : x < W)
    (hng : ¬ inGrid H W ((y : Int) - dy) ((x : Int) - dx)) (hd : d < D) :
    aggregate_path_hls H W D p1 p2 cost v dy dx y x d = cost y x d :=
  agg_boundary hy hx hng hd

/-- Witness for C3 at a concrete instance: grid `1 × 2`, direction
left-to-right, first pixel `(0, 0)` of a row (predecessor column `-1`). -/
theorem claim_C3_witness :
    ¬ inGrid 1 2 ((0 : Int) - 0) ((0 : Int) - 1) ∧
      aggregate_path_hls 1 2 2 8 128 (fun _ _ _ => 7) (fun _ _ _ => 0) 0 1 0 0 1 =
        (fun _ _ _ => (7 : ℚ)) 0 0 1 :=
  ⟨by decide,
    claim_C3 1 2 2 8 128 (fun _ _ _ => 7) (fun _ _ _ => 0) 0 1 0 0 1
      (by decide) (by decide) (by decide) (by decide)⟩

/-- C5: if the left and right images are pixel-identical, the raw cost at
disparity `0` is zero at every pixel, and with the configured penalties
`P1_PENALTY = 8 > 0` and `P2_PENALTY = 128 > 0` the disparity selected by
`sgm_hls` is `0` at every pixel. -/
theorem claim_C5 (H W D : Nat) (left right : Image)
    (vC vL vR vT vB : Volume) (y x : Nat)
    (hiden : ∀ i, left i = right i) (hy : y < H) (hx : x < W) (hD : 0 < D) :
    compute_sad_cost_hls H W D left right vC y x 0 = 0 ∧
      sgm_hls H W D P1_PENALTY P2_PENALTY left right vC vL vR vT vB y x = 0 := by
  have hp1 : (0 : ℚ) ≤ P1_PENALTY := by norm_num [P1_PENALTY]
  have hp2 : (0 : ℚ) ≤ P2_PENALTY := by norm_num [P2_PENALTY]
  have hcost0 : ∀ y' x', y' < H → x' < W →
      compute_sad_cost_hls H W D left right vC y' x' 0 = 0 := by
    intro y' x' hy' hx'
    rw [sad_spec hy' hx' hD, if_pos (by omega), hiden (y' * W + x')]
    simp
  have hnn : ∀ y' x' d', y' < H → x' < W → d' < D →
      0 ≤ compute_sad_cost_hls H W D left right vC y' x' d' :=
    fun y' x' d' hy' hx' hd' => sad_nonneg hy' hx' hd'
  obtain ⟨hLnn, hL0⟩ := agg_zero vL 0 1 (by decide) hp1 hp2 hcost0 hnn y x hy hx
  obtain ⟨hRnn, hR0⟩ :=
    agg_zero vR 0 (-1) (by decide) hp1 hp2 hcost0 hnn y x hy hx
  obtain ⟨hTnn, hT0⟩ := agg_zero vT 1 0 (by decide) hp1 hp2 hcost0 hnn y x hy hx
  obtain ⟨hBnn, hB0⟩ :=
    agg_zero vB (-1) 0 (by decide) hp1 hp2 hcost0 hnn y x hy hx
  refine ⟨hcost0 y x hy hx, ?_⟩
  rw [sgm_eq_select]
  set t := totalCost H W D P1_PENALTY P2_PENALTY left right vC vL vR vT vB y x
    with ht
  have ht0 : t 0 = 0 := by
    rw [ht]
    unfold totalCost
    rw [hL0 hD, hR0 hD, hT0 hD, hB0 hD]
    norm_num
  have htnn : ∀ d < D, 0 ≤ t d := by
    intro d hd
    rw [ht]
    unfold totalCost
    have := hLnn d hd
    have := hRnn d hd
    have := hTnn d hd
    have := hBnn d hd
    linarith
  obtain ⟨hmin, hleast⟩ :=
    selectDisparity_argmin (D := D) (t := t) ⟨0, hD, by rw [ht0]; norm_num⟩
  have hsel := selectDisparity_lt (D := D) (t := t) hD
  have h1 : t (selectDisparity D t) ≤ t 0 := hmin 0 hD
  have h2 : 0 ≤ t (selectDisparity D t) := htnn _ hsel
  have h3 : t 0 = t (selectDisparity D t) := by
    rw [ht0]
    linarith
  have := hleast 0 hD h3
  omega

/-- Witness for C5: a `1 × 1` grid with one disparity and equal constant
images. -/
theorem claim_C5_witness :
    compute_sad_cost_hls 1 1 1 (fun _ => 3) (fun _ => 3) (fun _ _ _ => 0)
        0 0 0 = 0 ∧
      sgm_hls 1 1 1 P1_PENALTY P2_PENALTY (fun _ => 3) (fun _ => 3)
        (fun _ _ _ => 0) (fun _ _ _ => 0) (fun _ _ _ => 0) (fun _ _ _ => 0)
        (fun _ _ _ => 0) 0 0 = 0 :=
  claim_C5 1 1 1 (fun _ => 3) (fun _ => 3) (fun _ _ _ => 0) (fun _ _ _ => 0)
    (fun _ _ _ => 0) (fun _ _ _ => 0) (fun _ _ _ => 0) 0 0
    (fun _ => rfl) (by decide) (by decide) (by decide)

/-- C7 (amended): for every input cost volume whose in-grid cells are
non-negative and leave headroom `p2` below the `2000` unreachable sentinel
(cells at most `2000 - p2`; any grayscale-derived cost volume, whose cells
are at most `1000`, qualifies), and every cardinal direction, every in-grid
cell of the aggregated volume is at least the corresponding raw cost and at
most the raw cost plus `p2`; hence finite and non-negative. -/
theorem claim_C7 (H W D : Nat) (p1 p2 : ℚ) (cost v : Volume) (dy dx : Int)
    (y x d : Nat) (hcard : isCardinal dy dx) (hp1 : 0 ≤ p1) (hp2 : 0 ≤ p2)
    (hcost : ∀ y' x' d', y' < H → x' < W → d' < D →
      0 ≤ cost y' x' d' ∧ cost y' x' d' + p2 ≤ 2000)
    (hy : y < H) (hx : x < W) (hd : d < D) :
    cost y x d ≤ aggregate_path_hls H W D p1 p2 cost v dy dx y x d ∧
      aggregate_path_hls H W D p1 p2 cost v dy dx y x d ≤ cost y x d + p2 :=
  agg_bounds hcard hp1 hp2 hcost y x d hy hx hd

/-- Witness for C7 (amended) at a concrete instance: constant cost `1`,
grid `1 × 2`, two disparities, direction left-to-right, pixel `(0, 1)`. -/
theorem claim_C7_witness :
    (fun _ _ _ => (1 : ℚ)) 0 1 0 ≤
        aggregate_path_hls 1 2 2 8 128 (fun _ _ _ => 1) (fun _ _ _ => 0)
          0 1 0 1 0 ∧
      aggregate_path_hls 1 2 2 8 128 (fun _ _ _ => 1) (fun _ _ _ => 0)
          0 1 0 1 0 ≤ (fun _ _ _ => (1 : ℚ)) 0 1 0 + 128 :=
  claim_C7 1 2 2 8 128 (fun _ _ _ => 1) (fun _ _ _ => 0) 0 1 0 1 0
    (by decide) (by norm_num) (by norm_num)
    (fun _ _ _ _ _ _ => ⟨by norm_num, by norm_num⟩)
    (by decide) (by decide) (by decide)

/-- Counterexample to C7 as stated: a cost volume that is non-negative but
exceeds the `2000` sentinel (constant `5000`) makes the `d = 0` step-down
sentinel the minimum transition, so the aggregated cell at pixel `(0, 1)`,
disparity `0` drops to `2000`, strictly below its raw cost `5000` — the
claimed lower bound `aggregated ≥ raw` fails. -/
theorem claim_C7_counterexample :
    isCardinal 0 1 ∧
      (∀ y x d : Nat, 0 ≤ (fun _ _ _ => (5000 : ℚ)) y x d) ∧
      aggregate_path_hls 1 2 2 8 128 (fun _ _ _ => 5000) (fun _ _ _ => 0)
          0 1 0 1 0 <
        (fun _ _ _ => (5000 : ℚ)) 0 1 0 := by
  refine ⟨by decide, fun _ _ _ => by norm_num, ?_⟩
  have hb0 : aggregate_path_hls 1 2 2 8 128 (fun _ _ _ => 5000)
      (fun _ _ _ => 0) 0 1 0 0 0 = 5000 :=
    agg_boundary (by decide) (by decide) (by decide) (by decide)
  have hb1 : aggregate_path_hls 1 2 2 8 128 (fun _ _ _ => 5000)
      (fun _ _ _ => 0) 0 1 0 0 1 = 5000 :=
    agg_boundary (by decide) (by decide) (by decide) (by decide)
  have hstep := @agg_step 1 2 2 8 128 (fun _ _ _ => 5000) (fun _ _ _ => 0)
    0 1 0 1 0 (by decide) (by decide) (by decide) (by decide) (by decide)
  have e1 : (((0 : Nat) : Int) - 0).toNat = 0 := by decide
  have e2 : (((1 : Nat) : Int) - 1).toNat = 0 := by decide
  rw [e1, e2] at hstep
  have hfib : fiberMin 2 (aggregate_path_hls 1 2 2 8 128 (fun _ _ _ => 5000)
      (fun _ _ _ => 0) 0 1 0 0) = 5000 := by
    unfold fiberMin
    rw [show (2 : Nat) - 1 = 1 from rfl,
      show List.range 1 = [0] from rfl, List.foldl_cons, List.foldl_nil]
    rw [show (0 + 1 : Nat) = 1 from rfl, hb0, hb1]
    norm_num
  rw [hfib] at hstep
  have htm : transMin 2 8 128 (aggregate_path_hls 1 2 2 8 128
      (fun _ _ _ => 5000) (fun _ _ _ => 0) 0 1 0 0) 5000 0 = 2000 := by
    unfold transMin
    dsimp only
    rw [show (0 + 1 : Nat) = 1 from rfl, hb0, hb1]
    norm_num
  rw [htm] at hstep
  rw [hstep]
  norm_num

/-- C8: for every pair of input images and any previous contents of the
static volumes, the disparity stored at every pixel of the
`HEIGHT × WIDTH` output grid lies in `[0, MAX_DISP)`, i.e. in `[0, 16)`. -/
theorem claim_C8 (left right : Image) (vC vL vR vT vB : Volume) (y x : Nat)
    (_hy : y < HEIGHT) (_hx : x < WIDTH) :
    sgm_hls HEIGHT WIDTH MAX_DISP P1_PENALTY P2_PENALTY left right
      vC vL vR vT vB y x < MAX_DISP := by
  rw [sgm_eq_select]
  exact selectDisparity_lt (by norm_num [MAX_DISP])

/-- Witness for C8 at pixel `(0, 0)` of the configured grid with zero
images. -/
theorem claim_C8_witness :
    sgm_hls HEIGHT WIDTH MAX_DISP P1_PENALTY P2_PENALTY (fun _ => 0)
      (fun _ => 0) (fun _ _ _ => 0) (fun _ _ _ => 0) (fun _ _ _ => 0)
      (fun _ _ _ => 0) (fun _ _ _ => 0) 0 0 < MAX_DISP :=
  claim_C8 (fun _ => 0) (fun _ => 0) (fun _ _ _ => 0) (fun _ _ _ => 0)
    (fun _ _ _ => 0) (fun _ _ _ => 0) (fun _ _ _ => 0) 0 0
    (by norm_num [HEIGHT]) (by norm_num [WIDTH])

/-- C4: at every pixel the selection stage computes each total as the sum of
the four aggregated volumes at that disparity (`totalCost` is that sum by
definition, and the first conjunct states the output is the winner-take-all
scan over it) and outputs the smallest disparity index achieving the minimum
total — on ties the smallest index wins, by the strict less-than comparison.
Stated for grayscale-range inputs (the data model's bounded intensity range),
whose totals always beat the `1e9` scan initialization. -/
theorem claim_C4 (left right : Image) (vC vL vR vT vB : Volume) (y x : Nat)
    (hl : ∀ i, 0 ≤ left i ∧ left i ≤ 255)
    (hr : ∀ i, 0 ≤ right i ∧ right i ≤ 255)
    (hy : y < HEIGHT) (hx : x < WIDTH) :
    sgm_hls HEIGHT WIDTH MAX_DISP P1_PENALTY P2_PENALTY left right
        vC vL vR vT vB y x =
      selectDisparity MAX_DISP (totalCost HEIGHT WIDTH MAX_DISP P1_PENALTY
        P2_PENALTY left right vC vL vR vT vB y x) ∧
      (∀ d < MAX_DISP,
        totalCost HEIGHT WIDTH MAX_DISP P1_PENALTY P2_PENALTY left right
            vC vL vR vT vB y x
            (sgm_hls HEIGHT WIDTH MAX_DISP P1_PENALTY P2_PENALTY left right
              vC vL vR vT vB y x) ≤
          totalCost HEIGHT WIDTH MAX_DISP P1_PENALTY P2_PENALTY left right
            vC vL vR vT vB y x d) ∧
      (∀ d < MAX_DISP,
        totalCost HEIGHT WIDTH MAX_DISP P1_PENALTY P2_PENALTY left right
            vC vL vR vT vB y x d =
          totalCost HEIGHT WIDTH MAX_DISP P1_PENALTY P2_PENALTY left right
            vC vL vR vT vB y x
            (sgm_hls HEIGHT WIDTH MAX_DISP P1_PENALTY P2_PENALTY left right
              vC vL vR vT vB y x) →
        sgm_hls HEIGHT WIDTH MAX_DISP P1_PENALTY P2_PENALTY left right
            vC vL vR vT vB y x ≤ d) := by
  have hD : 0 < MAX_DISP := by norm_num [MAX_DISP]
  have hex : ∃ j, j < MAX_DISP ∧
      totalCost HEIGHT WIDTH MAX_DISP P1_PENALTY P2_PENALTY left right
        vC vL vR vT vB y x j < 10 ^ 9 := by
    refine ⟨0, hD, ?_⟩
    have h1 := gray_tot_le vC vL vR vT vB hl hr hy hx hD
    have h2 := gray_cost_le (v := vC) hl hr hy hx hD
    have hp2v : P2_PENALTY = (128 : ℚ) := rfl
    have h3 : (4 * (1000 : ℚ) + 4 * 128) < 10 ^ 9 := by norm_num
    linarith
  rw [sgm_eq_select]
  obtain ⟨hmin, hleast⟩ := selectDisparity_argmin hex
  exact ⟨rfl, hmin, hleast⟩

/-- Witness for C4 at pixel `(0, 0)` of the configured grid with zero
images. -/
theorem claim_C4_witness :
    sgm_hls HEIGHT WIDTH MAX_DISP P1_PENALTY P2_PENALTY (fun _ => 0)
        (fun _ => 0) (fun _ _ _ => 0) (fun _ _ _ => 0) (fun _ _ _ => 0)
        (fun _ _ _ => 0) (fun _ _ _ => 0) 0 0 =
      selectDisparity MAX_DISP (totalCost HEIGHT WIDTH MAX_DISP P1_PENALTY
        P2_PENALTY (fun _ => 0) (fun _ => 0) (fun _ _ _ => 0) (fun _ _ _ => 0)
        (fun _ _ _ => 0) (fun _ _ _ => 0) (fun _ _ _ => 0) 0 0) ∧
      (∀ d < MAX_DISP,
        totalCost HEIGHT WIDTH MAX_DISP P1_PENALTY P2_PENALTY (fun _ => 0)
            (fun _ => 0) (fun _ _ _ => 0) (fun _ _ _ => 0) (fun _ _ _ => 0)
            (fun _ _ _ => 0) (fun _ _ _ => 0) 0 0
            (sgm_hls HEIGHT WIDTH MAX_DISP P1_PENALTY P2_PENALTY (fun _ => 0)
              (fun _ => 0) (fun _ _ _ => 0) (fun _ _ _ => 0) (fun _ _ _ => 0)
              (fun _ _ _ => 0) (fun _ _ _ => 0) 0 0) ≤
          totalCost HEIGHT WIDTH MAX_DISP P1_PENALTY P2_PENALTY (fun _ => 0)
            (fun _ => 0) (fun _ _ _ => 0) (fun _ _ _ => 0) (fun _ _ _ => 0)
            (fun _ _ _ => 0) (fun _ _ _ => 0) 0 0 d) ∧
      (∀ d < MAX_DISP,
        totalCost HEIGHT WIDTH MAX_DISP P1_PENALTY P2_PENALTY (fun _ => 0)
            (fun _ => 0) (fun _ _ _ => 0) (fun _ _ _ => 0) (fun _ _ _ => 0)
            (fun _ _ _ => 0) (fun _ _ _ => 0) 0 0 d =
          totalCost HEIGHT WIDTH MAX_DISP P1_PENALTY P2_PENALTY (fun _ => 0)
            (fun _ => 0) (fun _ _ _ => 0) (fun _ _ _ => 0) (fun _ _ _ => 0)
            (fun _ _ _ => 0) (fun _ _ _ => 0) 0 0
            (sgm_hls HEIGHT WIDTH MAX_DISP P1_PENALTY P2_PENALTY (fun _ => 0)
              (fun _ => 0) (fun _ _ _ => 0) (fun _ _ _ => 0) (fun _ _ _ => 0)
              (fun _ _ _ => 0) (fun _ _ _ => 0) 0 0) →
        sgm_hls HEIGHT WIDTH MAX_DISP P1_PENALTY P2_PENALTY (fun _ => 0)
            (fun _ => 0) (fun _ _ _ => 0) (fun _ _ _ => 0) (fun _ _ _ => 0)
            (fun _ _ _ => 0) (fun _ _ _ => 0) 0 0 ≤ d) :=
  claim_C4 (fun _ => 0) (fun _ => 0) (fun _ _ _ => 0) (fun _ _ _ => 0)
    (fun _ _ _ => 0) (fun _ _ _ => 0) (fun _ _ _ => 0) 0 0
    (fun _ => ⟨by norm_num, by norm_num⟩) (fun _ => ⟨by norm_num, by norm_num⟩)
    (by norm_num [HEIGHT]) (by norm_num [WIDTH])

/-- C9: the disparity map is a pure function of the two input images alone —
for any two previous contents of the five static on-chip volumes, the outputs
agree at every pixel, because every cell of every volume is rewritten before
it is read; repeated runs on fixed inputs are therefore bit-identical. -/
theorem claim_C9 (left right : Image)
    (vC vL vR vT vB wC wL wR wT wB : Volume) (y x : Nat)
    (hy : y < HEIGHT) (hx : x < WIDTH) :
    sgm_hls HEIGHT WIDTH MAX_DISP P1_PENALTY P2_PENALTY left right
        vC vL vR vT vB y x =
      sgm_hls HEIGHT WIDTH MAX_DISP P1_PENALTY P2_PENALTY left right
        wC wL wR wT wB y x := by
  have hcosteq : ∀ y' x' d', y' < HEIGHT → x' < WIDTH → d' < MAX_DISP →
      compute_sad_cost_hls HEIGHT WIDTH MAX_DISP left right vC y' x' d' =
        compute_sad_cost_hls HEIGHT WIDTH MAX_DISP left right wC y' x' d' := by
    intro y' x' d' hy' hx' hd'
    rw [sad_spec hy' hx' hd', sad_spec hy' hx' hd']
  rw [sgm_eq_select, sgm_eq_select]
  apply selectDisparity_congr
  intro j hj
  unfold totalCost
  have hL := agg_unique P1_PENALTY P2_PENALTY vL wL 0 1 (by decide) hcosteq
    y x j hy hx hj
  have hR := agg_unique P1_PENALTY P2_PENALTY vR wR 0 (-1) (by decide) hcosteq
    y x j hy hx hj
  have hT := agg_unique P1_PENALTY P2_PENALTY vT wT 1 0 (by decide) hcosteq
    y x j hy hx hj
  have hB := agg_unique P1_PENALTY P2_PENALTY vB wB (-1) 0 (by decide) hcosteq
    y x j hy hx hj
  rw [hL, hR, hT, hB]

/-- Witness for C9 at pixel `(0, 0)`: two different stale contents (`0` and
`42`) of the static volumes give the same output. -/
theorem claim_C9_witness :
    sgm_hls HEIGHT WIDTH MAX_DISP P1_PENALTY P2_PENALTY (fun _ => 0)
        (fun _ => 0) (fun _ _ _ => 0) (fun _ _ _ => 0) (fun _ _ _ => 0)
        (fun _ _ _ => 0) (fun _ _ _ => 0) 0 0 =
      sgm_hls HEIGHT WIDTH MAX_DISP P1_PENALTY P2_PENALTY (fun _ => 0)
        (fun _ => 0) (fun _ _ _ => 42) (fun _ _ _ => 42) (fun _ _ _ => 42)
        (fun _ _ _ => 42) (fun _ _ _ => 42) 0 0 :=
  claim_C9 (fun _ => 0) (fun _ => 0) (fun _ _ _ => 0) (fun _ _ _ => 0)
    (fun _ _ _ => 0) (fun _ _ _ => 0) (fun _ _ _ => 0) (fun _ _ _ => 42)
    (fun _ _ _ => 42) (fun _ _ _ => 42) (fun _ _ _ => 42) (fun _ _ _ => 42)
    0 0 (by norm_num [HEIGHT]) (by norm_num [WIDTH])

/-- C10: for grayscale-range inputs, the disparity selected at pixel
`(y, x)` never exceeds the column index `x`: any `d > x` carries the `1000`
boundary penalty in all four paths (total at least `4000`), while the total
at `d = 0` is at most `4 * (255 + P2) < 4000`. -/
theorem claim_C10 (left right : Image) (vC vL vR vT vB : Volume) (y x : Nat)
    (hl : ∀ i, 0 ≤ left i ∧ left i ≤ 255)
    (hr : ∀ i, 0 ≤ right i ∧ right i ≤ 255)
    (hy : y < HEIGHT) (hx : x < WIDTH) :
    sgm_hls HEIGHT WIDTH MAX_DISP P1_PENALTY P2_PENALTY left right
      vC vL vR vT vB y x ≤ x := by
  have hD : 0 < MAX_DISP := by norm_num [MAX_DISP]
  rw [sgm_eq_select]
  by_contra hgt
  push_neg at hgt
  have hsD : selectDisparity MAX_DISP (totalCost HEIGHT WIDTH MAX_DISP
      P1_PENALTY P2_PENALTY left right vC vL vR vT vB y x) < MAX_DISP :=
    selectDisparity_lt hD
  have hcost_s : compute_sad_cost_hls HEIGHT WIDTH MAX_DISP left right vC y x
      (selectDisparity MAX_DISP (totalCost HEIGHT WIDTH MAX_DISP P1_PENALTY
        P2_PENALTY left right vC vL vR vT vB y x)) = 1000 := by
    rw [sad_spec hy hx hsD, if_neg (by omega)]
  have hge := gray_tot_ge vC vL vR vT vB hl hr hy hx hsD
  rw [hcost_s] at hge
  have hle0 := gray_tot_le vC vL vR vT vB hl hr hy hx hD
  have hc0 := gray_cost0_le (v := vC) hl hr hy hx hD
  have hp2v : P2_PENALTY = (128 : ℚ) := rfl
  have hex : ∃ j, j < MAX_DISP ∧
      totalCost HEIGHT WIDTH MAX_DISP P1_PENALTY P2_PENALTY left right
        vC vL vR vT vB y x j < 10 ^ 9 := by
    refine ⟨0, hD, ?_⟩
    have h3 : (4 * (255 : ℚ) + 4 * 128) < 10 ^ 9 := by norm_num
    linarith
  obtain ⟨hmin, _⟩ := selectDisparity_argmin hex
  have hs0 := hmin 0 hD
  linarith

/-- Witness for C10 at pixel `(0, 0)` of the configured grid with zero
images. -/
theorem claim_C10_witness :
    sgm_hls HEIGHT WIDTH MAX_DISP P1_PENALTY P2_PENALTY (fun _ => 0)
      (fun _ => 0) (fun _ _ _ => 0) (fun _ _ _ => 0) (fun _ _ _ => 0)
      (fun _ _ _ => 0) (fun _ _ _ => 0) 0 0 ≤ 0 :=
  claim_C10 (fun _ => 0) (fun _ => 0) (fun _ _ _ => 0) (fun _ _ _ => 0)
    (fun _ _ _ => 0) (fun _ _ _ => 0) (fun _ _ _ => 0) 0 0
    (fun _ => ⟨by norm_num, by norm_num⟩) (fun _ => ⟨by norm_num, by norm_num⟩)
    (by norm_num [HEIGHT]) (by norm_num [WIDTH])

end SGM
